import Mathlib

/-!
Shallow embedding of `src/latex_server.py` (LaTeX_MCP).

Strings are modelled as `List Char`.  Each Python `re.findall` call in the
source uses one of a handful of concrete pattern shapes; each shape is
embedded as an executable left-to-right scanner with the exact semantics of
CPython's `re.findall` for that pattern:

* scanning tries to match at each position, on success the capture is
  recorded and scanning resumes at the end of the match, on failure
  scanning advances one character;
* `([^X]*)X` captures up to the first occurrence of the delimiter `X`
  (the character class cannot cross the delimiter, greediness is moot);
* `(.*?)(?=LOOKAHEAD)` with `re.DOTALL` captures lazily: the smallest
  prefix such that the lookahead holds at the stop position; the `$`
  alternative of a lookahead matches at end of input and also just before
  a newline that ends the input (CPython `$` without `re.MULTILINE`);
* `(.*?)END` captures lazily up to the first occurrence of the literal
  `END`; if `END` never occurs there is no match at this start position.

Python's `str.lower` is modelled by `Char.toLower` (they agree on ASCII,
which is all the analysed markup uses), `str.strip()` by stripping the
ASCII whitespace characters, and the insertion-ordered `dict` used by the
term checker by an association list grown at the tail.  The process-wide
`term_cache` global is modelled by explicit state passing: the cache is an
extra argument and the updated cache an extra result.
-/

/-- `([^d]*)d`: split a string at the first occurrence of the character
`d`, returning the part before it and the part after it; `none` when `d`
does not occur. -/
def splitAtChar (d : Char) : List Char → Option (List Char × List Char)
  | [] => none
  | c :: rest =>
    if c = d then some ([], rest)
    else
      match splitAtChar d rest with
      | none => none
      | some (a, b) => some (c :: a, b)

/-- `(.*?)END` (lazy, DOTALL): the smallest split `l = b ++ endm ++ rem`,
returned as `(b, rem)`; `none` when `endm` does not occur in `l`. -/
def lazyUntil (endm : List Char) : List Char → Option (List Char × List Char)
  | [] => if endm.isEmpty then some ([], []) else none
  | c :: rest =>
    if endm.isPrefixOf (c :: rest) then some ([], (c :: rest).drop endm.length)
    else
      match lazyUntil endm rest with
      | none => none
      | some (b, rem) => some (c :: b, rem)

/-- `(.*?)(?=LA)` (lazy, DOTALL): consume the smallest prefix such that the
lookahead predicate `la` holds at the remaining suffix (for the lookaheads
of the source, `la` always holds at `[]`, so a match always exists);
returns `(body, remainder)`. -/
def lazyBody (la : List Char → Bool) : List Char → List Char × List Char
  | [] => ([], [])
  | c :: rest =>
    if la (c :: rest) then ([], c :: rest)
    else (c :: (lazyBody la rest).1, (lazyBody la rest).2)

/-- One `re.findall` scanning pass, fuelled (the fuel is the input length;
`scanGo` is total and fuel-insensitive for every step function that
strictly consumes input, see `scanGo_eq_scanL`).  `step l` returns
`some (capture, remainder)` when the pattern matches at the start of `l`,
`none` otherwise. -/
def scanGo {α : Type} (step : List Char → Option (α × List Char)) :
    Nat → List Char → List α
  | 0, _ => []
  | _ + 1, [] => []
  | n + 1, c :: rest =>
    match step (c :: rest) with
    | some (a, rem) => a :: scanGo step n rem
    | none => scanGo step n rest

/-- `re.findall pattern text`: scan `text` left to right with `step`. -/
def scanL {α : Type} (step : List Char → Option (α × List Char))
    (l : List Char) : List α :=
  scanGo step l.length l

/-- Step of `PRE([^}]*)\x7d`: the literal `pre` (for instance `\cite\x7b`),
then a capture up to the first closing brace. -/
def bracedStep (pre : List Char) (l : List Char) :
    Option (List Char × List Char) :=
  if pre.isPrefixOf l then
    match splitAtChar '\x7d' (l.drop pre.length) with
    | some (cap, rem) => some (cap, rem)
    | none => none
  else none

/-- Step of the inline-formula pattern `\$([^$]+)\$`. -/
def inlineStep (l : List Char) : Option (List Char × List Char) :=
  match l with
  | '$' :: rest =>
    match splitAtChar '$' rest with
    | some (cap, rem) => if cap = [] then none else some (cap, rem)
    | none => none
  | _ => none

/-- Step of the display-formula pattern `\$\$([^$]+)\$\$`. -/
def displayStep (l : List Char) : Option (List Char × List Char) :=
  match l with
  | '$' :: '$' :: rest =>
    match splitAtChar '$' rest with
    | some (cap, '$' :: rem) => if cap = [] then none else some (cap, rem)
    | _ => none
  | _ => none

/-- Step of `BEGIN(.*?)END` (the `equation` / `align` environments). -/
def envStep (beginm endm : List Char) (l : List Char) :
    Option (List Char × List Char) :=
  if beginm.isPrefixOf l then
    match lazyUntil endm (l.drop beginm.length) with
    | some (body, rem) => some (body, rem)
    | none => none
  else none

/-- The literal `\section\x7b`. -/
def secMark : List Char := ("\\section\x7b").data

/-- The literal `\subsection\x7b`. -/
def subMark : List Char := ("\\subsection\x7b").data

/-- Lookahead `(?=\\section\{|$)` of the section pattern: the next section
marker starts here, or end of input (`$` also matches just before a
newline that ends the input). -/
def sectionLA (r : List Char) : Bool :=
  secMark.isPrefixOf r || r.isEmpty || (r == ['\n'])

/-- Lookahead `(?=\\subsection\{|\\section\{|$)` of the subsection
pattern. -/
def subsectionLA (r : List Char) : Bool :=
  subMark.isPrefixOf r || secMark.isPrefixOf r || r.isEmpty || (r == ['\n'])

/-- Step of the section pattern
`\\section\{([^}]*)\}(.*?)(?=\\section\{|$)`: captures `(title, body)`. -/
def sectionStep (l : List Char) :
    Option ((List Char × List Char) × List Char) :=
  if secMark.isPrefixOf l then
    match splitAtChar '\x7d' (l.drop secMark.length) with
    | some (title, r1) =>
      some ((title, (lazyBody sectionLA r1).1), (lazyBody sectionLA r1).2)
    | none => none
  else none

/-- Step of the subsection pattern
`\\subsection\{([^}]*)\}(.*?)(?=\\subsection\{|\\section\{|$)`. -/
def subsectionStep (l : List Char) :
    Option ((List Char × List Char) × List Char) :=
  if subMark.isPrefixOf l then
    match splitAtChar '\x7d' (l.drop subMark.length) with
    | some (title, r1) =>
      some ((title, (lazyBody subsectionLA r1).1), (lazyBody subsectionLA r1).2)
    | none => none
  else none

/-- All `(title, body)` pairs of `\section` blocks, in document order. -/
def findSections (text : List Char) : List (List Char × List Char) :=
  scanL sectionStep text

/-- All `(title, body)` pairs of `\subsection` blocks of a section body. -/
def findSubsections (body : List Char) : List (List Char × List Char) :=
  scanL subsectionStep body

/-- A parsed subsection, as built by `read_text`. -/
structure DocSubsection where
  title : List Char
  content : List Char
deriving DecidableEq, Repr

/-- A parsed section, as built by `read_text`. -/
structure DocSection where
  title : List Char
  content : List Char
  subsections : List DocSubsection
deriving DecidableEq, Repr

/-- The structure returned by `read_text`: the section list and, under the
key `"content"`, the raw input text. -/
structure DocStructure where
  sections : List DocSection
  content : List Char
deriving DecidableEq, Repr

/-- `read_text` on `List Char`: parse the `\section` / `\subsection`
hierarchy. -/
def read_textL (text : List Char) : DocStructure :=
  { sections :=
      (findSections text).map fun tb =>
        { title := tb.1
          content := tb.2
          subsections := (findSubsections tb.2).map fun sc =>
            { title := sc.1, content := sc.2 } }
    content := text }

/-- `read_text` of the source, on `String`. -/
def read_text (text : String) : DocStructure := read_textL text.data

/-- The static instruction string returned by `rewrite_paragraph`. -/
def rewriteInstruction : List Char :=
  ("请根据上下文对这段LaTeX文本进行润色和改写，保持专业的学术风格和术语一致性").data

/-- The dict returned by `rewrite_paragraph`. -/
structure RewriteResult where
  paragraph : List Char
  context : List Char
  style : List Char
  instruction : List Char
deriving DecidableEq, Repr

/-- `rewrite_paragraph` of the source: returns its three inputs verbatim
together with the fixed instruction string; no rewriting is computed. -/
def rewrite_paragraph (paragraph : String) (context : String)
    (style : String) : RewriteResult :=
  { paragraph := paragraph.data
    context := context.data
    style := style.data
    instruction := rewriteInstruction }

/-- `optimize_equation` of the source: a parameterless prompt function
whose body is `pass`, so it takes no document input and returns `None`
(the optimization examples live only in its static docstring). -/
def optimize_equation : Option (List Char) := none

/-- Python `term.lower()` (ASCII case folding; the two agree on the ASCII
markup analysed here). -/
def lowerL (l : List Char) : List Char := l.map Char.toLower

/-- The literal `\textit\x7b`. -/
def textitMark : List Char := ("\\textit\x7b").data

/-- The literal `\textbf\x7b`. -/
def textbfMark : List Char := ("\\textbf\x7b").data

/-- The literal `\term\x7b`. -/
def termMark : List Char := ("\\term\x7b").data

/-- The literal `\cite\x7b`. -/
def citeMark : List Char := ("\\cite\x7b").data

/-- All candidate terms, in the source's processing order: all `\textit`
captures, then all `\textbf` captures, then all `\term` captures, then all
`\cite` captures. -/
def extractedTerms (text : List Char) : List (List Char) :=
  scanL (bracedStep textitMark) text ++ scanL (bracedStep textbfMark) text
    ++ scanL (bracedStep termMark) text ++ scanL (bracedStep citeMark) text

/-- The `found_terms` dict: an insertion-ordered association list from
case-folded key to the first spelling recorded for that key. -/
abbrev TermTable := List (List Char × List Char)

/-- Python `term_lower in found_terms` / `found_terms[term_lower]`. -/
def lookupTerm : TermTable → List Char → Option (List Char)
  | [], _ => none
  | (k, v) :: rest, key => if k = key then some v else lookupTerm rest key

/-- Python `found_terms.values()`, in insertion order. -/
def tableValues (t : TermTable) : List (List Char) := t.map Prod.snd

/-- One `Inconsistency` dict of `check_term_consistency`. -/
structure Inconsistency where
  original : List Char
  variant : List Char
  suggestion : List Char
deriving DecidableEq, Repr

/-- The suggestion string `Consider using '<orig>' consistently`. -/
def suggestionFor (orig : List Char) : List Char :=
  ("Consider using \x27").data ++ orig ++ ("\x27 consistently").data

/-- The body of the term loop: process one extracted term against the
accumulated `(found_terms, inconsistencies)` state. -/
def processTerm (acc : TermTable × List Inconsistency) (term : List Char) :
    TermTable × List Inconsistency :=
  let key := lowerL term
  match lookupTerm acc.1 key with
  | some orig =>
    if orig ≠ term ∧ term ∉ tableValues acc.1 then
      (acc.1, acc.2 ++ [{ original := orig
                          variant := term
                          suggestion := suggestionFor orig }])
    else acc
  | none => (acc.1 ++ [(key, term)], acc.2)

/-- The local `(found_terms, inconsistencies)` computed by one
`check_term_consistency` call. -/
def checkCore (text : List Char) : TermTable × List Inconsistency :=
  (extractedTerms text).foldl processTerm ([], [])

/-- The local term table of one call (`found_terms` at loop end). -/
def localTermTable (text : List Char) : TermTable := (checkCore text).1

/-- The dict returned by `check_term_consistency`. -/
structure TermCheckResult where
  terms : TermTable
  inconsistencies : List Inconsistency
deriving DecidableEq, Repr

/-- `check_term_consistency` of the source, with the process-wide
`term_cache` global modelled by explicit state passing: `cache` is the
global's value before the call, the second component of the result its
value after the call. -/
def check_term_consistencyL (text : List Char) (update_cache : Bool)
    (cache : TermTable) : TermCheckResult × TermTable :=
  let r := checkCore text
  ({ terms := r.1, inconsistencies := r.2 },
    if update_cache then r.1 else cache)

/-- `check_term_consistency` on `String`. -/
def check_term_consistency (text : String) (update_cache : Bool)
    (cache : TermTable) : TermCheckResult × TermTable :=
  check_term_consistencyL text.data update_cache cache

/-- The literal `\begin\x7bequation\x7d`. -/
def beginEquation : List Char := ("\\begin\x7bequation\x7d").data

/-- The literal `\end\x7bequation\x7d`. -/
def endEquation : List Char := ("\\end\x7bequation\x7d").data

/-- The literal `\begin\x7balign\x7d`. -/
def beginAlign : List Char := ("\\begin\x7balign\x7d").data

/-- The literal `\end\x7balign\x7d`. -/
def endAlign : List Char := ("\\end\x7balign\x7d").data

/-- Category name `inline`. -/
def catInline : List Char := ("inline").data

/-- Category name `display`. -/
def catDisplay : List Char := ("display").data

/-- Category name `equation`. -/
def catEquation : List Char := ("equation").data

/-- Category name `align`. -/
def catAlign : List Char := ("align").data

/-- Decimal rendering of a natural number, as Python's f-string does. -/
def natToChars (n : Nat) : List Char := (Nat.repr n).data

/-- The error `"<cat> formula #<i+1> has mismatched parentheses"` for the
0-based index `i`. -/
def mismatchedMsg (cat : List Char) (i : Nat) : List Char :=
  cat ++ (" formula #").data ++ natToChars (i + 1)
    ++ (" has mismatched parentheses").data

/-- The error `"<cat> formula #<i+1> may have unescaped special
characters"` for the 0-based index `i`. -/
def unescapedMsg (cat : List Char) (i : Nat) : List Char :=
  cat ++ (" formula #").data ++ natToChars (i + 1)
    ++ (" may have unescaped special characters").data

/-- The special characters `_^&%` of the escape heuristic. -/
def specialChars : List Char := ("_^&%").data

/-- The errors contributed by one formula (0-based index `i`): the
parenthesis-balance check, then the unescaped-special-character check. -/
def checkOne (cat : List Char) (i : Nat) (f : List Char) :
    List (List Char) :=
  (if f.count '(' ≠ f.count ')' then [mismatchedMsg cat i] else [])
    ++ (if '\\' ∉ f ∧ ∃ c ∈ specialChars, c ∈ f then [unescapedMsg cat i]
        else [])

/-- The errors of one category's formula list, enumerated from index `i`. -/
def errorsFor (cat : List Char) : Nat → List (List Char) → List (List Char)
  | _, [] => []
  | i, f :: rest => checkOne cat i f ++ errorsFor cat (i + 1) rest

/-- The suggestion appended when at least one `align` block was found. -/
def labelSuggestion : List Char :=
  ("Consider using \\label\x7b\x7d for important equations to reference them later").data

/-- The dict returned by `check_formulas`: the four formula lists of the
`formulas` sub-dict, the `errors` and the `suggestions`. -/
structure FormulaReport where
  inline : List (List Char)
  display : List (List Char)
  equation : List (List Char)
  align : List (List Char)
  errors : List (List Char)
  suggestions : List (List Char)
deriving DecidableEq, Repr

/-- `check_formulas` of the source, on `List Char`. -/
def check_formulasL (text : List Char) : FormulaReport :=
  let inl := scanL inlineStep text
  let dis := scanL displayStep text
  let equ := scanL (envStep beginEquation endEquation) text
  let ali := scanL (envStep beginAlign endAlign) text
  { inline := inl
    display := dis
    equation := equ
    align := ali
    errors := errorsFor catInline 0 inl ++ errorsFor catDisplay 0 dis
      ++ errorsFor catEquation 0 equ ++ errorsFor catAlign 0 ali
    suggestions := if ali.length > 0 then [labelSuggestion] else [] }

/-- `check_formulas` on `String`. -/
def check_formulas (text : String) : FormulaReport :=
  check_formulasL text.data

/-- The four formula categories, in the iteration order of the source's
`all_formulas` dict. -/
inductive FormulaCat
  | inline
  | display
  | equation
  | align
deriving DecidableEq, Repr

/-- The name of a formula category as used in the error strings. -/
def catName : FormulaCat → List Char
  | .inline => catInline
  | .display => catDisplay
  | .equation => catEquation
  | .align => catAlign

/-- The formula list of a category in a report. -/
def catFormulas (r : FormulaReport) : FormulaCat → List (List Char)
  | .inline => r.inline
  | .display => r.display
  | .equation => r.equation
  | .align => r.align

/-- Python `str.strip()` whitespace (the ASCII part; the analysed keys
contain no other whitespace). -/
def pySpace (c : Char) : Bool :=
  c = ' ' || c = '\t' || c = '\n' || c = '\r' || c = '\x0b' || c = '\x0c'

/-- Python `s.strip()`. -/
def pyStrip (l : List Char) : List Char :=
  ((l.dropWhile pySpace).reverse.dropWhile pySpace).reverse

/-- Python `s.split(',')` (every comma splits; empty pieces are kept). -/
def splitComma : List Char → List (List Char)
  | [] => [[]]
  | c :: rest =>
    if c = ',' then [] :: splitComma rest
    else
      match splitComma rest with
      | [] => [[c]]
      | h :: t => (c :: h) :: t

/-- The dict returned by `analyze_citations`.  Python's `list(set(...))`
has unspecified order; it is modelled by `List.dedup`, which keeps one
copy of every distinct key (all claims about it concern only membership
and cardinality). -/
structure CitationReport where
  citation_count : Nat
  citations : List (List Char)
  bibliography_count : Nat
  unused_references : List (List Char)
  missing_references : List (List Char)
deriving DecidableEq, Repr

/-- The literal `\bibitem\x7b`. -/
def bibMark : List Char := ("\\bibitem\x7b").data

/-- The flattened, whitespace-stripped citation-key list of
`analyze_citations` (comma lists split, duplicates kept). -/
def citationKeys (text : List Char) : List (List Char) :=
  ((scanL (bracedStep citeMark) text).map splitComma).flatten.map pyStrip

/-- The raw `\bibitem` key list of `analyze_citations` (document order,
duplicates kept). -/
def bibliographyKeys (text : List Char) : List (List Char) :=
  scanL (bracedStep bibMark) text

/-- `analyze_citations` of the source, on `List Char`. -/
def analyze_citationsL (text : List Char) : CitationReport :=
  let citations := citationKeys text
  let bibliography := bibliographyKeys text
  { citation_count := citations.dedup.length
    citations := citations.dedup
    bibliography_count := bibliography.length
    unused_references := bibliography.filter fun r => decide (r ∉ citations)
    missing_references := citations.filter fun c => decide (c ∉ bibliography) }

/-- `analyze_citations` on `String`. -/
def analyze_citations (text : String) : CitationReport :=
  analyze_citationsL text.data

/-- The inconsistencies of a term-check result whose variant has the given
case-folded key (statement vocabulary for the per-key claims). -/
def inconsistenciesForKey (r : TermCheckResult) (key : List Char) :
    List Inconsistency :=
  r.inconsistencies.filter fun i => lowerL i.variant == key

/-! ## General lemmas about the scanning primitives -/

theorem drop_append_plus (a b : List Char) (i : Nat) :
    (a ++ b).drop (a.length + i) = b.drop i := by
  induction a with
  | nil => simp
  | cons c a ih => simp [Nat.succ_add, ih]

theorem drop_append_len (a b : List Char) : (a ++ b).drop a.length = b := by
  simp [drop_append_plus a b 0]

theorem isPrefixOf_append_self (a b : List Char) :
    a.isPrefixOf (a ++ b) = true := by
  induction a with
  | nil => cases b <;> rfl
  | cons c a ih => simp [List.isPrefixOf, ih]

theorem splitAtChar_some_length {d : Char} {l a b : List Char}
    (h : splitAtChar d l = some (a, b)) : b.length < l.length := by
  induction l generalizing a b with
  | nil => simp [splitAtChar] at h
  | cons c rest ih =>
    by_cases hc : c = d
    · simp only [splitAtChar, if_pos hc, Option.some.injEq, Prod.mk.injEq] at h
      obtain ⟨-, hb⟩ := h
      subst hb
      simp
    · simp only [splitAtChar, if_neg hc] at h
      cases hrec : splitAtChar d rest with
      | none => rw [hrec] at h; cases h
      | some ab =>
        obtain ⟨a', b'⟩ := ab
        rw [hrec] at h
        simp only [Option.some.injEq, Prod.mk.injEq] at h
        obtain ⟨-, hb⟩ := h
        have hlt := ih hrec
        subst hb
        simp only [List.length_cons]
        omega

theorem splitAtChar_append {d : Char} {a : List Char} (b : List Char)
    (ha : d ∉ a) : splitAtChar d (a ++ d :: b) = some (a, b) := by
  induction a with
  | nil => simp [splitAtChar]
  | cons c a ih =>
    have hc : ¬ c = d := by
      intro h
      exact ha (by simp [h])
    have ha' : d ∉ a := fun h => ha (by simp [h])
    simp [splitAtChar, hc, ih ha']

theorem lazyUntil_some_length {endm l b rem : List Char} (he : endm ≠ [])
    (h : lazyUntil endm l = some (b, rem)) : rem.length < l.length := by
  induction l generalizing b rem with
  | nil =>
    have : endm.isEmpty = false := by
      cases endm with
      | nil => exact absurd rfl he
      | cons x xs => rfl
    simp [lazyUntil, this] at h
  | cons c rest ih =>
    by_cases hp : endm.isPrefixOf (c :: rest) = true
    · simp only [lazyUntil, if_pos hp, Option.some.injEq, Prod.mk.injEq] at h
      obtain ⟨-, hrem⟩ := h
      subst hrem
      have hlen : 1 ≤ endm.length := by
        cases endm with
        | nil => exact absurd rfl he
        | cons x xs => simp
      have := List.length_drop (l := c :: rest) (i := endm.length)
      simp only [List.length_cons] at *
      omega
    · simp only [lazyUntil, if_neg hp] at h
      cases hrec : lazyUntil endm rest with
      | none => rw [hrec] at h; cases h
      | some br =>
        obtain ⟨b', rem'⟩ := br
        rw [hrec] at h
        simp only [Option.some.injEq, Prod.mk.injEq] at h
        obtain ⟨-, hrem⟩ := h
        have := ih hrec
        subst hrem
        simp only [List.length_cons]
        omega

theorem lazyBody_append_eq (la : List Char → Bool) (l : List Char) :
    (lazyBody la l).1 ++ (lazyBody la l).2 = l := by
  induction l with
  | nil => rfl
  | cons c rest ih =>
    by_cases hla : la (c :: rest) = true
    · simp [lazyBody, hla]
    · simp [lazyBody, hla, ih]

theorem lazyBody_snd_length (la : List Char → Bool) (l : List Char) :
    (lazyBody la l).2.length ≤ l.length := by
  have h := congrArg List.length (lazyBody_append_eq la l)
  simp only [List.length_append] at h
  omega

theorem lazyBody_la (la : List Char → Bool) (hnil : la [] = true)
    (l : List Char) : la (lazyBody la l).2 = true := by
  induction l with
  | nil => simpa [lazyBody] using hnil
  | cons c rest ih =>
    by_cases hla : la (c :: rest) = true
    · simpa [lazyBody, hla] using hla
    · simpa [lazyBody, hla] using ih

theorem lazyBody_of_append {la : List Char → Bool} (b l : List Char)
    (hb : ∀ i < b.length, la ((b ++ l).drop i) = false)
    (hl : la l = true) : lazyBody la (b ++ l) = (b, l) := by
  induction b with
  | nil =>
    cases l with
    | nil => rfl
    | cons c rest => simp [lazyBody, hl]
  | cons c b ih =>
    have h0 : la (c :: (b ++ l)) = false := by
      have := hb 0 (by simp)
      simpa using this
    have hb' : ∀ i < b.length, la ((b ++ l).drop i) = false := by
      intro i hi
      have := hb (i + 1) (by simp; omega)
      simpa using this
    simp [lazyBody, h0, ih hb']

theorem scanGo_nil {α : Type} (step : List Char → Option (α × List Char))
    (n : Nat) : scanGo step n [] = [] := by
  cases n <;> rfl

theorem scanL_nil {α : Type} (step : List Char → Option (α × List Char)) :
    scanL step [] = [] := rfl

/-- A step function that strictly consumes input: the remainder it returns
is strictly shorter than its input.  Every concrete pattern step of this
file satisfies it. -/
def StepShrinks {α : Type} (step : List Char → Option (α × List Char)) :
    Prop :=
  ∀ l a rem, step l = some (a, rem) → rem.length < l.length

theorem scanGo_eq_scanL {α : Type}
    {step : List Char → Option (α × List Char)} (hstep : StepShrinks step) :
    ∀ n l, l.length ≤ n → scanGo step n l = scanL step l := by
  intro n
  induction n using Nat.strong_induction_on with
  | _ n ih =>
    intro l hl
    cases l with
    | nil => simp [scanGo_nil, scanL_nil]
    | cons c rest =>
      cases n with
      | zero => simp at hl
      | succ m =>
        have hrest : rest.length ≤ m := by
          simp only [List.length_cons] at hl
          omega
        cases hs : step (c :: rest) with
        | some ar =>
          obtain ⟨a, rem⟩ := ar
          have hrem : rem.length < rest.length + 1 := hstep _ _ _ hs
          simp only [scanL, List.length_cons, scanGo, hs]
          have h1 : scanGo step m rem = scanL step rem := by
            apply ih m (by omega) rem (by omega)
          have h2 : scanGo step rest.length rem = scanL step rem := by
            apply ih rest.length (by omega) rem (by omega)
          rw [h1, h2]
        | none =>
          simp only [scanL, List.length_cons, scanGo, hs]
          have h1 : scanGo step m rest = scanL step rest := by
            apply ih m (by omega) rest (by omega)
          have h2 : scanGo step rest.length rest = scanL step rest := by
            apply ih rest.length (by omega) rest (by omega)
          rw [h1, h2]

theorem scanL_cons_none {α : Type}
    {step : List Char → Option (α × List Char)} {c : Char}
    {rest : List Char} (h : step (c :: rest) = none) :
    scanL step (c :: rest) = scanL step rest := by
  simp only [scanL, List.length_cons, scanGo, h]

theorem scanL_cons_some {α : Type}
    {step : List Char → Option (α × List Char)} (hstep : StepShrinks step)
    {c : Char} {rest : List Char} {a : α} {rem : List Char}
    (h : step (c :: rest) = some (a, rem)) :
    scanL step (c :: rest) = a :: scanL step rem := by
  have hrem : rem.length < rest.length + 1 := by
    simpa using hstep _ _ _ h
  simp only [scanL, List.length_cons, scanGo, h]
  rw [scanGo_eq_scanL hstep rest.length rem (by omega)]
  rfl

theorem scanL_append_none {α : Type}
    {step : List Char → Option (α × List Char)} (p : List Char)
    (l : List Char) (h : ∀ i < p.length, step ((p ++ l).drop i) = none) :
    scanL step (p ++ l) = scanL step l := by
  induction p with
  | nil => simp
  | cons c p ih =>
    have h0 : step (c :: (p ++ l)) = none := by
      have := h 0 (by simp)
      simpa using this
    have h' : ∀ i < p.length, step ((p ++ l).drop i) = none := by
      intro i hi
      have := h (i + 1) (by simp; omega)
      simpa using this
    rw [List.cons_append, scanL_cons_none h0, ih h']

theorem scanL_eq_nil {α : Type}
    {step : List Char → Option (α × List Char)} (l : List Char)
    (h : ∀ i < l.length, step (l.drop i) = none) : scanL step l = [] := by
  have h2 := @scanL_append_none α step l [] (by simpa using h)
  simpa using h2

theorem bracedStep_shrinks (pre : List Char) :
    StepShrinks (bracedStep pre) := by
  intro l a rem h
  unfold bracedStep at h
  split at h
  · split at h
    · rename_i cap rem' hs
      simp only [Option.some.injEq, Prod.mk.injEq] at h
      obtain ⟨-, hrem⟩ := h
      subst hrem
      have h1 := splitAtChar_some_length hs
      have h2 : (l.drop pre.length).length ≤ l.length := by
        simp [List.length_drop]
      omega
    · cases h
  · cases h

theorem inlineStep_shrinks : StepShrinks inlineStep := by
  intro l a rem h
  unfold inlineStep at h
  split at h
  · rename_i rest
    split at h
    · rename_i cap rem' hs
      split at h
      · cases h
      · simp only [Option.some.injEq, Prod.mk.injEq] at h
        obtain ⟨-, hrem⟩ := h
        subst hrem
        have := splitAtChar_some_length hs
        simp only [List.length_cons]
        omega
    · cases h
  · cases h

theorem displayStep_shrinks : StepShrinks displayStep := by
  intro l a rem h
  unfold displayStep at h
  split at h
  · rename_i rest
    split at h
    · rename_i cap rem' hs
      split at h
      · cases h
      · simp only [Option.some.injEq, Prod.mk.injEq] at h
        obtain ⟨-, hrem⟩ := h
        subst hrem
        have := splitAtChar_some_length hs
        simp only [List.length_cons] at *
        omega
    · cases h
  · cases h

theorem envStep_shrinks (beginm endm : List Char) (he : endm ≠ []) :
    StepShrinks (envStep beginm endm) := by
  intro l a rem h
  unfold envStep at h
  split at h
  · split at h
    · rename_i body rem' hs
      simp only [Option.some.injEq, Prod.mk.injEq] at h
      obtain ⟨-, hrem⟩ := h
      subst hrem
      have h1 := lazyUntil_some_length he hs
      have h2 : (l.drop beginm.length).length ≤ l.length := by
        simp [List.length_drop]
      omega
    · cases h
  · cases h

theorem sectionStep_shrinks : StepShrinks sectionStep := by
  intro l a rem h
  unfold sectionStep at h
  split at h
  · split at h
    · rename_i title r1 hs
      simp only [Option.some.injEq, Prod.mk.injEq] at h
      obtain ⟨-, hrem⟩ := h
      subst hrem
      have h1 := splitAtChar_some_length hs
      have h2 : (l.drop secMark.length).length ≤ l.length := by
        simp [List.length_drop]
      have h3 := lazyBody_snd_length sectionLA r1
      omega
    · cases h
  · cases h

theorem subsectionStep_shrinks : StepShrinks subsectionStep := by
  intro l a rem h
  unfold subsectionStep at h
  split at h
  · split at h
    · rename_i title r1 hs
      simp only [Option.some.injEq, Prod.mk.injEq] at h
      obtain ⟨-, hrem⟩ := h
      subst hrem
      have h1 := splitAtChar_some_length hs
      have h2 : (l.drop subMark.length).length ≤ l.length := by
        simp [List.length_drop]
      have h3 := lazyBody_snd_length subsectionLA r1
      omega
    · cases h
  · cases h

theorem bracedStep_none {pre l : List Char}
    (h : pre.isPrefixOf l = false) : bracedStep pre l = none := by
  simp [bracedStep, h]

theorem bracedStep_at (pre : List Char) {a : List Char} (b : List Char)
    (ha : '\x7d' ∉ a) :
    bracedStep pre (pre ++ a ++ '\x7d' :: b) = some (a, b) := by
  have h1 : pre.isPrefixOf (pre ++ (a ++ '\x7d' :: b)) = true :=
    isPrefixOf_append_self pre _
  have h2 : (pre ++ (a ++ '\x7d' :: b)).drop pre.length = a ++ '\x7d' :: b :=
    drop_append_len pre _
  simp only [List.append_assoc]
  simp [bracedStep, h1, h2, splitAtChar_append b ha]

theorem inlineStep_none {c : Char} {rest : List Char} (h : c ≠ '$') :
    inlineStep (c :: rest) = none := by
  unfold inlineStep
  split
  · rename_i heq
    injection heq with h1 h2
    exact absurd h1 h
  · rfl

theorem inlineStep_at {a : List Char} (b : List Char) (hne : a ≠ [])
    (ha : '$' ∉ a) : inlineStep ('$' :: (a ++ '$' :: b)) = some (a, b) := by
  simp [inlineStep, splitAtChar_append b ha, hne]

theorem displayStep_at {a : List Char} (b : List Char) (hne : a ≠ [])
    (ha : '$' ∉ a) :
    displayStep ('$' :: '$' :: (a ++ '$' :: '$' :: b)) = some (a, b) := by
  simp [displayStep, splitAtChar_append ('$' :: b) ha, hne]

theorem envStep_none {beginm endm l : List Char}
    (h : beginm.isPrefixOf l = false) : envStep beginm endm l = none := by
  simp [envStep, h]

theorem sectionStep_none {l : List Char}
    (h : secMark.isPrefixOf l = false) : sectionStep l = none := by
  simp [sectionStep, h]

theorem sectionStep_at {t : List Char} (tail : List Char)
    (ht : '\x7d' ∉ t) :
    sectionStep (secMark ++ t ++ '\x7d' :: tail) =
      some ((t, (lazyBody sectionLA tail).1), (lazyBody sectionLA tail).2) := by
  have h1 : secMark.isPrefixOf (secMark ++ (t ++ '\x7d' :: tail)) = true :=
    isPrefixOf_append_self secMark _
  have h2 : (secMark ++ (t ++ '\x7d' :: tail)).drop secMark.length
      = t ++ '\x7d' :: tail := drop_append_len secMark _
  simp only [List.append_assoc]
  simp [sectionStep, h1, h2, splitAtChar_append tail ht]

theorem subsectionStep_none {l : List Char}
    (h : subMark.isPrefixOf l = false) : subsectionStep l = none := by
  simp [subsectionStep, h]

theorem inlineStep_twodollar (r : List Char) :
    inlineStep ('$' :: '$' :: r) = none := by
  simp [inlineStep, splitAtChar]

theorem inlineStep_single : inlineStep ['$'] = none := by
  simp [inlineStep, splitAtChar]

/-! ## Claim theorems -/

/-- C1, counterexample: on the input `$$x$$` the formula validator captures
the span `x` both as an inline formula and as a display formula, so the
inline and display categories are not disjoint and the inline capture is
taken from inside the display formula. -/
theorem C1_counterexample :
    (check_formulas ("$$x$$")).inline = [['x']] ∧
      (check_formulas ("$$x$$")).display = [['x']] ∧
      (check_formulas ("$$x$$")).inline.head? =
        (check_formulas ("$$x$$")).display.head? := by
  decide

/-- C1 (amended): the formula validator extracts the four categories with
category-specific delimiter conventions, but the categories are not
pairwise disjoint: for every display formula `$$C$$` (`C` nonempty and
free of the delimiter character) the validator captures `C` both as a
display formula and as an inline formula taken from inside it. -/
theorem C1_display_content_also_inline (c : List Char) (hne : c ≠ [])
    (hd : '$' ∉ c) :
    (check_formulasL ('$' :: '$' :: (c ++ ['$', '$']))).inline = [c] ∧
      (check_formulasL ('$' :: '$' :: (c ++ ['$', '$']))).display = [c] := by
  have hin : scanL inlineStep ('$' :: '$' :: (c ++ ['$', '$'])) = [c] := by
    rw [scanL_cons_none (inlineStep_twodollar _)]
    have h1 : ('$' :: (c ++ ['$', '$'])) = '$' :: (c ++ '$' :: ['$']) := rfl
    rw [h1, scanL_cons_some inlineStep_shrinks (inlineStep_at ['$'] hne hd)]
    rw [scanL_cons_none inlineStep_single, scanL_nil]
  have hdis : scanL displayStep ('$' :: '$' :: (c ++ ['$', '$'])) = [c] := by
    have h1 : ('$' :: '$' :: (c ++ ['$', '$'])) =
        '$' :: '$' :: (c ++ '$' :: '$' :: []) := rfl
    rw [h1, scanL_cons_some displayStep_shrinks (displayStep_at [] hne hd)]
    rw [scanL_nil]
  exact ⟨by simp [check_formulasL, hin], by simp [check_formulasL, hdis]⟩

/-- C1, witness for the amended theorem at `C = "ab"`. -/
theorem C1_display_content_also_inline_witness :
    (check_formulasL ('$' :: '$' :: (['a', 'b'] ++ ['$', '$']))).inline =
        [['a', 'b']] ∧
      (check_formulasL ('$' :: '$' :: (['a', 'b'] ++ ['$', '$']))).display =
        [['a', 'b']] :=
  C1_display_content_also_inline ['a', 'b'] (by decide) (by decide)

/-- C2, counterexample: on the input `\bibitem{y}\bibitem{y}` the citation
analyzer returns `unused_references = ["y", "y"]` — not duplicate-free, so
not the set difference as a set of distinct keys — and
`bibliography_count = 2`, which is the raw list length and not the
cardinality `1` of the deduplicated bibliography set. -/
theorem C2_counterexample :
    (analyze_citations ("\\bibitem\x7by\x7d\\bibitem\x7by\x7d")).unused_references
        = [['y'], ['y']] ∧
      ¬ (analyze_citations ("\\bibitem\x7by\x7d\\bibitem\x7by\x7d")).unused_references.Nodup ∧
      (analyze_citations ("\\bibitem\x7by\x7d\\bibitem\x7by\x7d")).bibliography_count = 2 ∧
      (analyze_citations ("\\bibitem\x7by\x7d\\bibitem\x7by\x7d")).unused_references.dedup.length = 1 := by
  refine ⟨by decide, ?_, by decide, by decide⟩
  intro h
  have := h
  rw [show (analyze_citations ("\\bibitem\x7by\x7d\\bibitem\x7by\x7d")).unused_references
      = [['y'], ['y']] from by decide] at this
  simp at this

/-- C2 (amended): `unused_references` contains exactly the bibliography
entries that are not cited and `missing_references` exactly the flattened,
whitespace-trimmed citation keys that have no bibliography entry — as
membership, with duplicates of the underlying extraction lists preserved,
not as duplicate-free sets.  `citation_count` is the cardinality of the
deduplicated citation set, but `bibliography_count` is the raw length of
the `\bibitem` list, duplicates counted. -/
theorem C2_cross_reference_report (text : String) :
    (∀ k, k ∈ (analyze_citations text).unused_references ↔
        k ∈ bibliographyKeys text.data ∧ k ∉ citationKeys text.data) ∧
      (∀ k, k ∈ (analyze_citations text).missing_references ↔
        k ∈ citationKeys text.data ∧ k ∉ bibliographyKeys text.data) ∧
      (∀ k, k ∈ (analyze_citations text).citations ↔
        k ∈ citationKeys text.data) ∧
      (analyze_citations text).citation_count
        = (citationKeys text.data).toFinset.card ∧
      (analyze_citations text).bibliography_count
        = (bibliographyKeys text.data).length := by
  refine ⟨?_, ?_, ?_, ?_, rfl⟩
  · intro k
    simp [analyze_citations, analyze_citationsL, List.mem_filter]
  · intro k
    simp [analyze_citations, analyze_citationsL, List.mem_filter]
  · intro k
    simp [analyze_citations, analyze_citationsL, List.mem_dedup]
  · simp [analyze_citations, analyze_citationsL, List.card_toFinset]

/-- C3, counterexample: the equation-optimization helper of the source
(`optimize_equation`, a parameterless prompt whose body is `pass`) takes
no input at all and returns `None`; in particular it does not return its
input verbatim together with an instructional string. -/
theorem C3_counterexample : optimize_equation = none := rfl

/-- C3 (amended): the paragraph-rewrite helper returns its inputs
verbatim (paragraph, context, style) together with a fixed instructional
string and computes no rewritten result; the equation-optimization helper,
however, is a parameterless prompt whose body returns nothing (`None`) —
its instructional content is static documentation, not a computed
value. -/
theorem C3_passthrough_helpers (p c s : String) :
    (rewrite_paragraph p c s).paragraph = p.data ∧
      (rewrite_paragraph p c s).context = c.data ∧
      (rewrite_paragraph p c s).style = s.data ∧
      (rewrite_paragraph p c s).instruction = rewriteInstruction ∧
      optimize_equation = none :=
  ⟨rfl, rfl, rfl, rfl, rfl⟩

/-- C6: after `check_term_consistency(text, update_cache=True)` the
process-wide term table (modelled by the threaded cache state) equals
exactly the local table computed from `text`, whatever the table held
before: a full overwrite, not a merge — membership in the new table is
membership in the local table, and nothing of the previous contents
survives unless it is in the local table. -/
theorem C6_cache_full_overwrite (text : String) (cache : TermTable) :
    (check_term_consistency text true cache).2 = localTermTable text.data ∧
      (check_term_consistency text true cache).2
        = (check_term_consistency text true []).2 ∧
      (∀ kv : List Char × List Char,
        kv ∈ (check_term_consistency text true cache).2 ↔
          kv ∈ localTermTable text.data) := by
  refine ⟨rfl, rfl, fun kv => Iff.rfl⟩

/-- C9: the canonical spelling recorded for a key is decided by
pattern-family scan order (all `\textit` spans before all `\textbf`
spans), not by document position: in
`\textbf{FOO} \textit{foo}` the bold spelling `FOO` comes first in the
document, yet the emphasis spelling `foo` becomes the canonical value for
key `foo`, and `FOO` is reported as the variant. -/
theorem C9_scan_order_decides_canonical :
    lookupTerm
        (check_term_consistency ("\\textbf\x7bFOO\x7d \\textit\x7bfoo\x7d") false []).1.terms
        (("foo").data) = some (("foo").data) ∧
      (check_term_consistency ("\\textbf\x7bFOO\x7d \\textit\x7bfoo\x7d") false []).1.inconsistencies
        = [{ original := ("foo").data, variant := ("FOO").data,
             suggestion := suggestionFor (("foo").data) }] := by
  decide

/-- C10: the term checker emits one `Inconsistency` per non-canonical
occurrence without suppressing duplicates: in
`\term{Foo} \term{foo} \term{foo}` the variant `foo` occurs twice after
the canonical `Foo` was recorded, and the returned list contains two
identical entries. -/
theorem C10_duplicate_inconsistencies :
    (check_term_consistency ("\\term\x7bFoo\x7d \\term\x7bfoo\x7d \\term\x7bfoo\x7d") false []).1.inconsistencies
      = [{ original := ("Foo").data, variant := ("foo").data,
           suggestion := suggestionFor (("Foo").data) },
         { original := ("Foo").data, variant := ("foo").data,
           suggestion := suggestionFor (("Foo").data) }] := by
  decide

theorem errorsFor_mem_mismatched (cat : List Char) (fs : List (List Char)) :
    ∀ (i k : Nat) (f : List Char), fs[k]? = some f →
      f.count '(' ≠ f.count ')' →
      mismatchedMsg cat (i + k) ∈ errorsFor cat i fs := by
  induction fs with
  | nil => intro i k f h hc; simp at h
  | cons f0 rest ih =>
    intro i k f h hc
    cases k with
    | zero =>
      simp only [List.getElem?_cons_zero, Option.some.injEq] at h
      subst h
      simp [errorsFor, checkOne, hc]
    | succ k =>
      simp only [List.getElem?_cons_succ] at h
      have hrec := ih (i + 1) k f h hc
      have h2 : i + (k + 1) = (i + 1) + k := by omega
      rw [h2]
      exact List.mem_append_right _ hrec

/-- C7: `validate("$(a+b$")` yields exactly the mismatched-parentheses
error for category `inline`, 1-based index 1 (the captured formula `(a+b`
has one `(` and no `)`); in general, every extracted formula of any
category whose `(` count differs from its `)` count contributes the error
string `"<category> formula #<1-based index> has mismatched parentheses"`
to the validator's error list. -/
theorem C7_mismatched_paren_errors :
    (check_formulas ("$(a+b$")).errors
        = [("inline formula #1 has mismatched parentheses").data] ∧
      ∀ (text : List Char) (cat : FormulaCat) (k : Nat) (f : List Char),
        (catFormulas (check_formulasL text) cat)[k]? = some f →
        f.count '(' ≠ f.count ')' →
        mismatchedMsg (catName cat) k ∈ (check_formulasL text).errors := by
  refine ⟨by decide, ?_⟩
  intro text cat k f h hc
  cases cat with
  | inline =>
    simp only [catFormulas, check_formulasL] at h ⊢
    have hm := errorsFor_mem_mismatched catInline (scanL inlineStep text) 0 k f h hc
    rw [Nat.zero_add] at hm
    exact List.mem_append_left _ (List.mem_append_left _
      (List.mem_append_left _ hm))
  | display =>
    simp only [catFormulas, check_formulasL] at h ⊢
    have hm := errorsFor_mem_mismatched catDisplay (scanL displayStep text) 0 k f h hc
    rw [Nat.zero_add] at hm
    exact List.mem_append_left _ (List.mem_append_left _
      (List.mem_append_right _ hm))
  | equation =>
    simp only [catFormulas, check_formulasL] at h ⊢
    have hm := errorsFor_mem_mismatched catEquation
      (scanL (envStep beginEquation endEquation) text) 0 k f h hc
    rw [Nat.zero_add] at hm
    exact List.mem_append_left _ (List.mem_append_right _ hm)
  | align =>
    simp only [catFormulas, check_formulasL] at h ⊢
    have hm := errorsFor_mem_mismatched catAlign
      (scanL (envStep beginAlign endAlign) text) 0 k f h hc
    rw [Nat.zero_add] at hm
    exact List.mem_append_right _ hm

/-- C7, witness: an `align` formula `(a` at index 0 with one `(` and no
`)` produces the align mismatched-parentheses error. -/
theorem C7_mismatched_paren_errors_witness :
    mismatchedMsg (catName FormulaCat.align) 0
      ∈ (check_formulasL (("\\begin\x7balign\x7d(a\\end\x7balign\x7d").data)).errors :=
  C7_mismatched_paren_errors.2 (("\\begin\x7balign\x7d(a\\end\x7balign\x7d").data)
    FormulaCat.align 0 (("(a").data) (by decide) (by decide)

theorem lookupTerm_mem {t : TermTable} {k v : List Char}
    (h : lookupTerm t k = some v) : (k, v) ∈ t := by
  induction t with
  | nil => cases h
  | cons kv rest ih =>
    obtain ⟨k0, v0⟩ := kv
    by_cases hk : k0 = k
    · simp only [lookupTerm, if_pos hk, Option.some.injEq] at h
      subst hk
      subst h
      exact List.mem_cons_self _ _
    · simp only [lookupTerm, if_neg hk] at h
      exact List.mem_cons_of_mem _ (ih h)

theorem processTerms_no_inconsistency (key w : List Char) :
    ∀ (ts : List (List Char)) (tbl : TermTable) (inc : List Inconsistency),
      (∀ t ∈ ts, lowerL t = key → t = w) →
      (∀ v, (key, v) ∈ tbl → v = w) →
      (∀ i ∈ inc, lowerL i.variant ≠ key) →
      ∀ i ∈ (ts.foldl processTerm (tbl, inc)).2, lowerL i.variant ≠ key := by
  intro ts
  induction ts with
  | nil =>
    intro tbl inc hts htbl hinc
    simpa using hinc
  | cons t ts ih =>
    intro tbl inc hts htbl hinc
    have hts' : ∀ x ∈ ts, lowerL x = key → x = w := fun x hx =>
      hts x (List.mem_cons_of_mem _ hx)
    have htkey : lowerL t = key → t = w := hts t (List.mem_cons_self _ _)
    simp only [List.foldl_cons]
    rcases hp : processTerm (tbl, inc) t with ⟨tbl', inc'⟩
    apply ih tbl' inc'
    · exact hts'
    · -- the table invariant is preserved
      simp only [processTerm] at hp
      split at hp
      · rename_i orig hlook
        split at hp
        · simp only [Prod.mk.injEq] at hp
          obtain ⟨h1, -⟩ := hp
          subst h1
          exact htbl
        · simp only [Prod.mk.injEq] at hp
          obtain ⟨h1, -⟩ := hp
          subst h1
          exact htbl
      · rename_i hlook
        simp only [Prod.mk.injEq] at hp
        obtain ⟨h1, -⟩ := hp
        subst h1
        intro v hv
        rcases List.mem_append.mp hv with hold | hnew
        · exact htbl v hold
        · simp only [List.mem_singleton, Prod.mk.injEq] at hnew
          obtain ⟨hk, hv'⟩ := hnew
          subst hv'
          exact htkey hk.symm
    · -- the inconsistency invariant is preserved
      simp only [processTerm] at hp
      split at hp
      · rename_i orig hlook
        split at hp
        · rename_i hcond
          simp only [Prod.mk.injEq] at hp
          obtain ⟨h1, h2⟩ := hp
          subst h1
          subst h2
          intro i hi
          rcases List.mem_append.mp hi with hold | hnew
          · exact hinc i hold
          · simp only [List.mem_singleton] at hnew
            subst hnew
            simp only
            intro hkey
            have ht : t = w := htkey hkey
            rw [hkey] at hlook
            have horig : orig = w := htbl orig (lookupTerm_mem hlook)
            exact hcond.1 (by rw [horig, ht])
        · simp only [Prod.mk.injEq] at hp
          obtain ⟨-, h2⟩ := hp
          subst h2
          exact hinc
      · simp only [Prod.mk.injEq] at hp
        obtain ⟨-, h2⟩ := hp
        subst h2
        exact hinc

/-- C5: `check("\term{Foo} ... \term{foo}", updateCache=false)` returns
exactly one `Inconsistency`, with original `Foo` and variant `foo`; and on
any input where every extracted occurrence of a given case-folded key uses
one and the same spelling `w`, the returned inconsistency list contains no
entry for that key. -/
theorem C5_single_spelling_single_report :
    (check_term_consistency ("\\term\x7bFoo\x7d ... \\term\x7bfoo\x7d") false []).1.inconsistencies
        = [{ original := ("Foo").data, variant := ("foo").data,
             suggestion := suggestionFor (("Foo").data) }] ∧
      ∀ (text key w : List Char),
        (∀ t ∈ extractedTerms text, lowerL t = key → t = w) →
        inconsistenciesForKey (check_term_consistencyL text false []).1 key
          = [] := by
  refine ⟨by decide, ?_⟩
  intro text key w hsp
  have hmain := processTerms_no_inconsistency key w (extractedTerms text) [] []
    hsp (by simp) (by simp)
  have hfold : (check_term_consistencyL text false []).1.inconsistencies
      = ((extractedTerms text).foldl processTerm ([], [])).2 := rfl
  unfold inconsistenciesForKey
  rw [hfold, List.filter_eq_nil_iff]
  intro i hi
  have hne := hmain i hi
  simp only [beq_iff_eq]
  exact hne

/-- C5, witness: on `\term{Bar} and \term{Bar}` every occurrence of key
`bar` is spelled `Bar`, and no inconsistency for that key is returned. -/
theorem C5_single_spelling_single_report_witness :
    inconsistenciesForKey
        (check_term_consistencyL (("\\term\x7bBar\x7d and \\term\x7bBar\x7d").data) false []).1
        (("bar").data) = [] :=
  C5_single_spelling_single_report.2
    (("\\term\x7bBar\x7d and \\term\x7bBar\x7d").data) (("bar").data)
    (("Bar").data) (by decide)

theorem inlineStep_none_drop {text : List Char} (hd : '$' ∉ text) (i : Nat) :
    inlineStep (text.drop i) = none := by
  cases h : text.drop i with
  | nil => rfl
  | cons c r =>
    apply inlineStep_none
    intro hc
    subst hc
    exact hd (List.drop_subset i text (by simp [h]))

theorem displayStep_none_of_head {c : Char} {rest : List Char}
    (h : c ≠ '$') : displayStep (c :: rest) = none := by
  unfold displayStep
  split
  · rename_i heq
    injection heq with h1 h2
    exact absurd h1 h
  · rfl

theorem displayStep_none_drop {text : List Char} (hd : '$' ∉ text) (i : Nat) :
    displayStep (text.drop i) = none := by
  cases h : text.drop i with
  | nil => rfl
  | cons c r =>
    apply displayStep_none_of_head
    intro hc
    subst hc
    exact hd (List.drop_subset i text (by simp [h]))

/-- C8: every engine is total (each is a Lean function, defined on every
string) and degrades to empty results instead of failing: on the empty
input every engine returns the fully empty report, and on any input
without the engine's markers the structural parser returns no sections,
the formula validator empty formula lists with no errors or suggestions,
the citation analyzer the empty cross-reference report, and the term
checker the empty term table with no inconsistencies. -/
theorem C8_engines_total_degrade_to_empty :
    (read_text ("") = { sections := [], content := [] }) ∧
      (check_term_consistency ("") false []
        = ({ terms := [], inconsistencies := [] }, [])) ∧
      (check_formulas ("")
        = { inline := [], display := [], equation := [], align := [],
            errors := [], suggestions := [] }) ∧
      (analyze_citations ("")
        = { citation_count := 0, citations := [], bibliography_count := 0,
            unused_references := [], missing_references := [] }) ∧
      (∀ text : List Char,
        (∀ i < text.length, secMark.isPrefixOf (text.drop i) = false) →
        (read_textL text).sections = []) ∧
      (∀ text : List Char, '$' ∉ text →
        (∀ i < text.length, beginEquation.isPrefixOf (text.drop i) = false) →
        (∀ i < text.length, beginAlign.isPrefixOf (text.drop i) = false) →
        check_formulasL text
          = { inline := [], display := [], equation := [], align := [],
              errors := [], suggestions := [] }) ∧
      (∀ text : List Char,
        (∀ i < text.length, citeMark.isPrefixOf (text.drop i) = false) →
        (∀ i < text.length, bibMark.isPrefixOf (text.drop i) = false) →
        analyze_citationsL text
          = { citation_count := 0, citations := [], bibliography_count := 0,
              unused_references := [], missing_references := [] }) ∧
      (∀ text : List Char,
        (∀ i < text.length, textitMark.isPrefixOf (text.drop i) = false) →
        (∀ i < text.length, textbfMark.isPrefixOf (text.drop i) = false) →
        (∀ i < text.length, termMark.isPrefixOf (text.drop i) = false) →
        (∀ i < text.length, citeMark.isPrefixOf (text.drop i) = false) →
        check_term_consistencyL text false []
          = ({ terms := [], inconsistencies := [] }, [])) := by
  refine ⟨by decide, by decide, by decide, by decide, ?_, ?_, ?_, ?_⟩
  · intro text h
    have hs : scanL sectionStep text = [] :=
      scanL_eq_nil text fun i hi => sectionStep_none (h i hi)
    simp [read_textL, findSections, hs]
  · intro text hd heq hal
    have h1 : scanL inlineStep text = [] :=
      scanL_eq_nil text fun i _ => inlineStep_none_drop hd i
    have h2 : scanL displayStep text = [] :=
      scanL_eq_nil text fun i _ => displayStep_none_drop hd i
    have h3 : scanL (envStep beginEquation endEquation) text = [] :=
      scanL_eq_nil text fun i hi => envStep_none (heq i hi)
    have h4 : scanL (envStep beginAlign endAlign) text = [] :=
      scanL_eq_nil text fun i hi => envStep_none (hal i hi)
    simp [check_formulasL, h1, h2, h3, h4, errorsFor]
  · intro text hc hb
    have h1 : scanL (bracedStep citeMark) text = [] :=
      scanL_eq_nil text fun i hi => bracedStep_none (hc i hi)
    have h2 : scanL (bracedStep bibMark) text = [] :=
      scanL_eq_nil text fun i hi => bracedStep_none (hb i hi)
    simp [analyze_citationsL, citationKeys, bibliographyKeys, h1, h2]
  · intro text hit hbf htm hc
    have h1 : scanL (bracedStep textitMark) text = [] :=
      scanL_eq_nil text fun i hi => bracedStep_none (hit i hi)
    have h2 : scanL (bracedStep textbfMark) text = [] :=
      scanL_eq_nil text fun i hi => bracedStep_none (hbf i hi)
    have h3 : scanL (bracedStep termMark) text = [] :=
      scanL_eq_nil text fun i hi => bracedStep_none (htm i hi)
    have h4 : scanL (bracedStep citeMark) text = [] :=
      scanL_eq_nil text fun i hi => bracedStep_none (hc i hi)
    simp [check_term_consistencyL, checkCore, extractedTerms, h1, h2, h3, h4]

/-- C8, witness: on the marker-free input `hello` every engine returns the
empty report. -/
theorem C8_engines_total_degrade_to_empty_witness :
    (read_textL (("hello").data)).sections = [] ∧
      check_formulasL (("hello").data)
        = { inline := [], display := [], equation := [], align := [],
            errors := [], suggestions := [] } ∧
      analyze_citationsL (("hello").data)
        = { citation_count := 0, citations := [], bibliography_count := 0,
            unused_references := [], missing_references := [] } ∧
      check_term_consistencyL (("hello").data) false []
        = ({ terms := [], inconsistencies := [] }, []) :=
  ⟨C8_engines_total_degrade_to_empty.2.2.2.2.1 _ (by decide),
    C8_engines_total_degrade_to_empty.2.2.2.2.2.1 _ (by decide) (by decide)
      (by decide),
    C8_engines_total_degrade_to_empty.2.2.2.2.2.2.1 _ (by decide) (by decide),
    C8_engines_total_degrade_to_empty.2.2.2.2.2.2.2 _ (by decide) (by decide)
      (by decide) (by decide)⟩

theorem scanL_some {α : Type} {step : List Char → Option (α × List Char)}
    (hstep : StepShrinks step) {l : List Char} {a : α} {rem : List Char}
    (hne : l ≠ []) (h : step l = some (a, rem)) :
    scanL step l = a :: scanL step rem := by
  cases l with
  | nil => exact absurd rfl hne
  | cons c rest => exact scanL_cons_some hstep h

theorem sectionLA_false {r : List Char} (hp : secMark.isPrefixOf r = false)
    (hlen : 2 ≤ r.length) : sectionLA r = false := by
  have h1 : r.isEmpty = false := by
    cases r with
    | nil => simp at hlen
    | cons a b => rfl
  have h2 : (r == ['\n']) = false := by
    rw [beq_eq_false_iff_ne]
    intro h
    subst h
    simp at hlen
  simp [sectionLA, hp, h1, h2]

theorem sectionLA_marker (x : List Char) : sectionLA (secMark ++ x) = true := by
  simp [sectionLA, isPrefixOf_append_self]

theorem drop_eq_of_decomp {text a r : List Char} (h : text = a ++ r)
    (i : Nat) : text.drop (a.length + i) = r.drop i := by
  subst h
  exact drop_append_plus a r i

/-- C4: for a text that contains exactly two section markers (at the two
positions fixed by `hmk`) and no subsection marker, `read_text` returns
exactly two `Section` entries, in document order, with titles `t1` and
`t2`, and the first section's content is exactly the text `c1` between the
end of the first marker block and the character where the second section
marker begins. -/
theorem C4_two_sections_partition
    (pre t1 c1 t2 c2 text : List Char)
    (htext : text = pre ++ secMark ++ t1 ++ '\x7d' :: c1
        ++ secMark ++ t2 ++ '\x7d' :: c2)
    (ht1 : '\x7d' ∉ t1) (ht2 : '\x7d' ∉ t2)
    (hmk : ∀ i < text.length, secMark.isPrefixOf (text.drop i) = true →
      i = pre.length ∨
        i = pre.length + secMark.length + t1.length + 1 + c1.length)
    (hsub : ∀ i < text.length, subMark.isPrefixOf (text.drop i) = false) :
    (read_textL text).sections.length = 2 ∧
      (read_textL text).sections.map DocSection.title = [t1, t2] ∧
      ((read_textL text).sections.map DocSection.content)[0]? = some c1 := by
  have hsec9 : secMark.length = 9 := by decide
  -- the tail after the first section body
  have h0 : text = pre ++ (secMark ++ t1 ++ '\x7d' ::
      (c1 ++ (secMark ++ t2 ++ '\x7d' :: c2))) := by
    simp [htext, List.append_assoc]
  -- the decomposition in front of the first body
  have htext1 : text = (pre ++ secMark ++ t1 ++ ['\x7d'])
      ++ (c1 ++ (secMark ++ t2 ++ '\x7d' :: c2)) := by
    simp [htext, List.append_assoc]
  have hA1len : (pre ++ secMark ++ t1 ++ ['\x7d']).length
      = pre.length + secMark.length + t1.length + 1 := by
    simp
    omega
  have htextlen : text.length = pre.length + secMark.length + t1.length + 1
      + (c1.length + (secMark.length + t2.length + (1 + c2.length))) := by
    rw [htext1]
    simp
    omega
  -- Step A: scanning through pre finds no marker
  have hA : scanL sectionStep text = scanL sectionStep (secMark ++ t1 ++ '\x7d' ::
      (c1 ++ (secMark ++ t2 ++ '\x7d' :: c2))) := by
    conv_lhs => rw [h0]
    apply scanL_append_none
    intro i hi
    apply sectionStep_none
    have hdrop : (pre ++ (secMark ++ t1 ++ '\x7d' ::
        (c1 ++ (secMark ++ t2 ++ '\x7d' :: c2)))).drop i = text.drop i := by
      rw [← h0]
    rw [hdrop]
    cases hbool : secMark.isPrefixOf (text.drop i) with
    | false => rfl
    | true =>
      exfalso
      have hi' : i < text.length := by omega
      rcases hmk i hi' hbool with h | h <;> omega
  -- Step B: the first lazy body stops exactly at the second marker
  have hB : lazyBody sectionLA (c1 ++ (secMark ++ t2 ++ '\x7d' :: c2))
      = (c1, secMark ++ t2 ++ '\x7d' :: c2) := by
    apply lazyBody_of_append
    · intro i hi
      have hd := drop_eq_of_decomp htext1 i
      apply sectionLA_false
      · cases hbool : secMark.isPrefixOf
            ((c1 ++ (secMark ++ t2 ++ '\x7d' :: c2)).drop i) with
        | false => rfl
        | true =>
          exfalso
          rw [← hd] at hbool
          have hqlt : (pre ++ secMark ++ t1 ++ ['\x7d']).length + i
              < text.length := by
            rw [hA1len]
            omega
          rcases hmk _ hqlt hbool with h | h <;> rw [hA1len] at h <;> omega
      · have : ((c1 ++ (secMark ++ t2 ++ '\x7d' :: c2)).drop i).length
            = c1.length + (secMark.length + (t2.length + (1 + c2.length))) - i := by
          simp
          omega
        omega
    · exact sectionLA_marker _
  -- Step C: the first match
  rcases hlz : lazyBody sectionLA c2 with ⟨b2, rem2⟩
  have hstep1 : sectionStep (secMark ++ t1 ++ '\x7d' ::
      (c1 ++ (secMark ++ t2 ++ '\x7d' :: c2)))
      = some ((t1, c1), secMark ++ t2 ++ '\x7d' :: c2) := by
    have h := sectionStep_at (t := t1) (c1 ++ (secMark ++ t2 ++ '\x7d' :: c2)) ht1
    rw [hB] at h
    exact h
  have hstep2 : sectionStep (secMark ++ t2 ++ '\x7d' :: c2)
      = some ((t2, b2), rem2) := by
    have h := sectionStep_at (t := t2) c2 ht2
    rw [hlz] at h
    exact h
  -- Step D: after the second body nothing matches
  have hb2 : b2 ++ rem2 = c2 := by
    have h := lazyBody_append_eq sectionLA c2
    rw [hlz] at h
    exact h
  have hla2 : sectionLA rem2 = true := by
    have h := lazyBody_la sectionLA (by decide) c2
    rw [hlz] at h
    exact h
  have hpf2 : secMark.isPrefixOf rem2 = false := by
    cases hbool : secMark.isPrefixOf rem2 with
    | false => rfl
    | true =>
      exfalso
      have hrem2ne : rem2 ≠ [] := by
        intro h
        rw [h] at hbool
        exact absurd hbool (by decide)
      have htext3 : text = (pre ++ secMark ++ t1 ++ ['\x7d'] ++ c1
          ++ secMark ++ t2 ++ ['\x7d'] ++ b2) ++ rem2 := by
        rw [htext, ← hb2]
        simp [List.append_assoc]
      have hQlen : (pre ++ secMark ++ t1 ++ ['\x7d'] ++ c1
          ++ secMark ++ t2 ++ ['\x7d'] ++ b2).length
          = pre.length + secMark.length + t1.length + 1 + c1.length
            + secMark.length + t2.length + 1 + b2.length := by
        simp
        omega
      have hd := drop_eq_of_decomp htext3 0
      simp only [Nat.add_zero, List.drop_zero] at hd
      have hc2len : c2.length = b2.length + rem2.length := by
        rw [← hb2]
        simp
      have hrem2pos : 1 ≤ rem2.length := by
        cases rem2 with
        | nil => exact absurd rfl hrem2ne
        | cons a b => simp
      have hQlt : (pre ++ secMark ++ t1 ++ ['\x7d'] ++ c1
          ++ secMark ++ t2 ++ ['\x7d'] ++ b2).length < text.length := by
        rw [hQlen]
        omega
      have hbool' : secMark.isPrefixOf (text.drop
          (pre ++ secMark ++ t1 ++ ['\x7d'] ++ c1
            ++ secMark ++ t2 ++ ['\x7d'] ++ b2).length) = true := by
        rw [hd]
        exact hbool
      rcases hmk _ hQlt hbool' with h | h <;> rw [hQlen] at h <;> omega
  have hrem2cases : rem2 = [] ∨ rem2 = ['\n'] := by
    simp [sectionLA, hpf2] at hla2
    exact hla2
  have hE : scanL sectionStep rem2 = [] := by
    rcases hrem2cases with h | h
    · rw [h, scanL_nil]
    · rw [h]
      decide
  -- assembly
  have hne1 : (secMark ++ t1 ++ '\x7d' ::
      (c1 ++ (secMark ++ t2 ++ '\x7d' :: c2))) ≠ [] := by
    simp
  have hne2 : (secMark ++ t2 ++ '\x7d' :: c2) ≠ [] := by
    simp
  have hfind : findSections text = [(t1, c1), (t2, b2)] := by
    unfold findSections
    rw [hA, scanL_some sectionStep_shrinks hne1 hstep1,
      scanL_some sectionStep_shrinks hne2 hstep2, hE]
  refine ⟨?_, ?_, ?_⟩ <;> simp [read_textL, hfind]

/-- C4, witness at the concrete document `A \section{X}B1\section{Y}C2`. -/
theorem C4_two_sections_partition_witness :
    (read_textL (("A \\section\x7bX\x7dB1\\section\x7bY\x7dC2").data)).sections.length = 2 ∧
      (read_textL (("A \\section\x7bX\x7dB1\\section\x7bY\x7dC2").data)).sections.map
          DocSection.title = [['X'], ['Y']] ∧
      ((read_textL (("A \\section\x7bX\x7dB1\\section\x7bY\x7dC2").data)).sections.map
          DocSection.content)[0]? = some (("B1").data) :=
  C4_two_sections_partition (("A ").data) ['X'] (("B1").data) ['Y']
    (("C2").data) (("A \\section\x7bX\x7dB1\\section\x7bY\x7dC2").data)
    (by decide) (by decide) (by decide) (by decide) (by decide)
